import Mathlib

/-!
Shallow embedding of the FCM pub/sub driver in `pubsub/firebase/firebase.go`.

The driver is embedded as pure Lean functions over abstract payload, message
and error types.  Side effects (hook invocations, the backend call, log
statements, metric emissions) are recorded in an ordered event trace, and a
method call through a nil interface or nil logger pointer is modelled as a
distinguished `Outcome.nilPanic` result.  The external collaborators are
parameters: `decode` stands for `messaging.Message.UnmarshalJSON` applied to a
request body, and `FCMClient` packages the two backend entry points
`SendAll` / `SendAllDryRun`.  `context.Context` carries no observable state for
any property below and is omitted.  An out-of-range index into the backend's
response slice (a Go runtime panic) is outside the model; theorems that walk
the response slice assume the documented index alignment
`len(resp.Responses) = len(dms)`.
-/

namespace Firebase

/-- Stand-in for `gcerrors.ErrorCode`; only the two codes the driver ever
returns are modelled. -/
inductive GcErrorCode where
  | OK
  | Unknown
  deriving DecidableEq

/-- Stand-in for `messaging.SendResponse`: a success flag plus an optional
per-message error, as read by `SendBatch`. -/
structure SendResponse (Err : Type) where
  success : Bool
  error : Option Err
  deriving DecidableEq

/-- Stand-in for `messaging.BatchResponse`: aggregate counts plus the
index-aligned per-message responses.  The Go counts are non-negative `int`s,
modelled as `Nat`. -/
structure BatchResponse (Err : Type) where
  successCount : Nat
  failureCount : Nat
  responses : List (SendResponse Err)

/-- A `driver.Message` as consumed by `SendBatch`: the serialized body and the
two optional hooks.  A before-send hook receives the decoded backend message
through the `asFunc` pointer, may mutate it, and returns an optional error; an
after-send hook receives the per-message response and returns an optional
error. -/
structure DriverMessage (Body Msg Err : Type) where
  body : Body
  beforeSend : Option (Msg → Option Err × Msg) := none
  afterSend : Option (SendResponse Err → Option Err) := none

/-- The backend client (`messaging.Client`), reduced to its two entry points. -/
structure FCMClient (Msg Err : Type) where
  sendAll : List Msg → Except Err (BatchResponse Err)
  sendAllDryRun : List Msg → Except Err (BatchResponse Err)

/-- `batcher.Options` fields merged by `OpenFCMTopic`. -/
structure BatcherOptions where
  maxBatchSize : Nat := 0
  maxHandlers : Nat := 0
  deriving DecidableEq

/-- The package-level default batcher options. -/
def sendBatchOpts : BatcherOptions :=
  { maxBatchSize := 500, maxHandlers := 50 }

/-- `TopicOptions`.  The nil-able interface/pointer fields `MetricService` and
`Logger` are modelled by `Option Unit`: only their nil-ness is observable, the
calls made on them are recorded in the event trace.  Field defaults are the Go
zero values, so `{}` is `&TopicOptions{}`. -/
structure TopicOptions where
  dryRun : Bool := false
  bacherOptions : Option BatcherOptions := none
  metricService : Option Unit := none
  tags : List String := []
  logger : Option Unit := none

/-- The driver topic: the backend client plus the (post-construction
immutable) options. -/
structure fcmTopic (Msg Err : Type) where
  client : FCMClient Msg Err
  opts : TopicOptions

/-- `openFCMTopic`: a nil options pointer is replaced by `&TopicOptions{}`. -/
def openFCMTopic {Msg Err : Type} (client : FCMClient Msg Err)
    (opts : Option TopicOptions) : fcmTopic Msg Err :=
  { client := client, opts := opts.getD {} }

/-- One observable step of a `SendBatch` run, in execution order. -/
inductive Event (Msg Err : Type) where
  | beforeSend (n : Nat)
  | backendCall (dryRun : Bool) (entries : List Msg)
  | logError (source : String) (e : Err)
  | logEntityError (n : Nat)
  | countMetric (stat : String) (value : Nat) (tags : List String)
  | timing (stat : String) (tags : List String)
  | afterSend (n : Nat)
  deriving DecidableEq

/-- Result of a `SendBatch` run: normal return (`ok` = nil error,
`fail e` = non-nil error) or a nil-interface/nil-pointer method call panic. -/
inductive Outcome (Err : Type) where
  | ok
  | fail (e : Err)
  | nilPanic (method : String)
  deriving DecidableEq

section Driver

variable {Body Msg Err : Type}

/-- The decode / before-send loop of `SendBatch` (one pass, interleaved, as in
the source): for each message in order, unmarshal the body, then run the
before-send hook if present; the first decode or hook error aborts with that
error.  Returns the before-send events fired and either the first error or the
built entries slice. -/
def buildEntries (decode : Body → Except Err Msg) :
    Nat → List (DriverMessage Body Msg Err) →
      List (Event Msg Err) × Except Err (List Msg)
  | _, [] => ([], Except.ok [])
  | n, dm :: rest =>
    match decode dm.body with
    | Except.error e => ([], Except.error e)
    | Except.ok entry =>
      match dm.beforeSend with
      | none =>
        let r := buildEntries decode (n + 1) rest
        (r.1, r.2.map fun ms => entry :: ms)
      | some hook =>
        match hook entry with
        | (some e, _) => ([Event.beforeSend n], Except.error e)
        | (none, entry2) =>
          let r := buildEntries decode (n + 1) rest
          (Event.beforeSend n :: r.1, r.2.map fun ms => entry2 :: ms)

/-- One step of the per-message reconciliation loop, lines
`if respEntity.Success && dm.AfterSend != nil { ... }` of `SendBatch`: when the
response entry at index `n` is successful and an after-send hook exists, invoke
the hook (recording the event) and keep its returned error. -/
def afterHookStep (n : Nat) (dm : DriverMessage Body Msg Err)
    (respEntity : SendResponse Err) :
    List (Event Msg Err) × Option Err :=
  if respEntity.success then
    match dm.afterSend with
    | some hook => ([Event.afterSend n], hook respEntity)
    | none => ([], none)
  else ([], none)

/-- The per-message reconciliation loop of `SendBatch`: for each index, run the
after-send hook when the response entry is successful and the hook exists (a
hook error aborts the loop), then log the response entry's error if present
(a nil logger makes that log call panic). -/
def afterLoop (logger : Option Unit) (responses : List (SendResponse Err)) :
    Nat → List (DriverMessage Body Msg Err) →
      List (Event Msg Err) × Outcome Err
  | _, [] => ([], Outcome.ok)
  | n, dm :: rest =>
    let respEntity := responses.getD n { success := false, error := none }
    match afterHookStep n dm respEntity with
    | (evs, some e) => (evs, Outcome.fail e)
    | (evs, none) =>
      if respEntity.error.isSome then
        match logger with
        | none => (evs, Outcome.nilPanic "Logger.Error")
        | some _ =>
          let r := afterLoop logger responses (n + 1) rest
          (evs ++ Event.logEntityError n :: r.1, r.2)
      else
        let r := afterLoop logger responses (n + 1) rest
        (evs ++ r.1, r.2)

/-- The full-success second pass of `SendBatch`: when
`resp.SuccessCount == len(dms)`, run every present after-send hook again, in
order, aborting on the first hook error. -/
def fullSuccessLoop (responses : List (SendResponse Err)) :
    Nat → List (DriverMessage Body Msg Err) →
      List (Event Msg Err) × Outcome Err
  | _, [] => ([], Outcome.ok)
  | n, dm :: rest =>
    match dm.afterSend with
    | none => fullSuccessLoop responses (n + 1) rest
    | some hook =>
      match hook (responses.getD n { success := false, error := none }) with
      | some e => ([Event.afterSend n], Outcome.fail e)
      | none =>
        let r := fullSuccessLoop responses (n + 1) rest
        (Event.afterSend n :: r.1, r.2)

/-- Combination of the traces around the full-success second pass: its events
follow the reconciliation pass's, and its outcome is the call's. -/
def sendBatchTailFull (pre evsA : List (Event Msg Err)) :
    List (Event Msg Err) × Outcome Err → Outcome Err × List (Event Msg Err)
  | (evsB, outB) => (outB, pre ++ evsA ++ evsB)

/-- Dispatch on the reconciliation pass's result: an aborting hook error or
logger panic is returned; on normal completion the full-success second pass
runs exactly when `resp.SuccessCount == len(dms)`. -/
def sendBatchTailAfter (resp : BatchResponse Err)
    (dms : List (DriverMessage Body Msg Err)) (pre : List (Event Msg Err)) :
    List (Event Msg Err) × Outcome Err → Outcome Err × List (Event Msg Err)
  | (evsA, Outcome.ok) =>
    if resp.successCount = dms.length then
      sendBatchTailFull pre evsA (fullSuccessLoop resp.responses 0 dms)
    else (Outcome.ok, pre ++ evsA)
  | (evsA, out) => (out, pre ++ evsA)

/-- The tail of `SendBatch` after the failure-count metric: the per-message
reconciliation pass followed, when `resp.SuccessCount == len(dms)`, by the
full-success second pass. -/
def sendBatchTail (opts : TopicOptions) (resp : BatchResponse Err)
    (dms : List (DriverMessage Body Msg Err))
    (pre : List (Event Msg Err)) :
    Outcome Err × List (Event Msg Err) :=
  sendBatchTailAfter resp dms pre
    (afterLoop opts.logger resp.responses 0 dms)

/-- Continuation of `SendBatch` from the backend call's result onward: on a
call-level error, log it (a nil logger panics) and return it; on success, emit
the failure-count metric when the reported failure count is positive (a nil
metrics interface panics), then run the reconciliation tail. -/
def sendBatchResp (opts : TopicOptions)
    (dms : List (DriverMessage Body Msg Err)) (evs0 : List (Event Msg Err))
    (entries : List Msg) :
    Except Err (BatchResponse Err) → Outcome Err × List (Event Msg Err)
  | Except.error e =>
    match opts.logger with
    | none =>
      (Outcome.nilPanic "Logger.Error",
        evs0 ++ [Event.backendCall opts.dryRun entries])
    | some _ =>
      (Outcome.fail e,
        evs0 ++ [Event.backendCall opts.dryRun entries,
          Event.logError "pubsub.firebase.sendBatch.response" e])
  | Except.ok resp =>
    if resp.failureCount > 0 then
      match opts.metricService with
      | none =>
        (Outcome.nilPanic "MetricService.Count",
          evs0 ++ [Event.backendCall opts.dryRun entries])
      | some _ =>
        sendBatchTail opts resp dms
          (evs0 ++ [Event.backendCall opts.dryRun entries,
            Event.countMetric "firebase.message.sendBatch.failure"
              resp.failureCount opts.tags])
    else
      sendBatchTail opts resp dms
        (evs0 ++ [Event.backendCall opts.dryRun entries])

/-- Continuation of `SendBatch` after the decode / before-send loop: submit
the entries through the entry point selected by the dry-run flag and continue
with the call's result. -/
def sendBatchCall (opts : TopicOptions) (client : FCMClient Msg Err)
    (dms : List (DriverMessage Body Msg Err)) (evs0 : List (Event Msg Err))
    (entries : List Msg) : Outcome Err × List (Event Msg Err) :=
  sendBatchResp opts dms evs0 entries
    (if opts.dryRun then client.sendAllDryRun entries
     else client.sendAll entries)

/-- Dispatch on the decode / before-send loop's result: a decode or
before-send hook error is returned as is, otherwise the backend is called. -/
def sendBatchAfterBuild (opts : TopicOptions) (client : FCMClient Msg Err)
    (dms : List (DriverMessage Body Msg Err)) :
    List (Event Msg Err) × Except Err (List Msg) →
      Outcome Err × List (Event Msg Err)
  | (evs0, Except.error e) => (Outcome.fail e, evs0)
  | (evs0, Except.ok entries) => sendBatchCall opts client dms evs0 entries

/-- The body of `SendBatch` up to (but excluding) the deferred `Timing` call:
decode + before-send hooks, the backend call (dry-run entry point when
configured), transport-error logging, the failure-count metric, the
per-message reconciliation pass, and the full-success second pass. -/
def sendBatchCore (opts : TopicOptions) (client : FCMClient Msg Err)
    (decode : Body → Except Err Msg)
    (dms : List (DriverMessage Body Msg Err)) :
    Outcome Err × List (Event Msg Err) :=
  sendBatchAfterBuild opts client dms (buildEntries decode 0 dms)

end Driver

/-- `fcmTopic.SendBatch`: the body `sendBatchCore` followed by the deferred
`t.opts.MetricService.Timing("firebase.messagine.sendBatch.latency", ...)`
call, which runs at function exit on every path and panics when the metrics
interface is nil (a panic in the deferred call is the call's final outcome). -/
def fcmTopic.SendBatch {Body Msg Err : Type} (t : fcmTopic Msg Err)
    (decode : Body → Except Err Msg)
    (dms : List (DriverMessage Body Msg Err)) :
    Outcome Err × List (Event Msg Err) :=
  match sendBatchCore t.opts t.client decode dms with
  | (out, evs) =>
    match t.opts.metricService with
    | none => (Outcome.nilPanic "MetricService.Timing", evs)
    | some _ =>
      (out, evs ++ [Event.timing "firebase.messagine.sendBatch.latency"
        t.opts.tags])

/-- `fcmTopic.ErrorCode`, exactly as written in the source: a non-nil error
returns `gcerrors.OK`, a nil error returns `gcerrors.Unknown`. -/
def fcmTopic.ErrorCode {Msg Err : Type} (_t : fcmTopic Msg Err)
    (err : Option Err) : GcErrorCode :=
  match err with
  | some _ => GcErrorCode.OK
  | none => GcErrorCode.Unknown

section Observables

variable {Body Msg Err : Type}

/-- Indices of the before-send hook invocations in a trace, in order. -/
def beforeSendsOf (evs : List (Event Msg Err)) : List Nat :=
  evs.filterMap fun e =>
    match e with
    | Event.beforeSend n => some n
    | _ => none

/-- Indices of the after-send hook invocations in a trace, in order. -/
def afterSendsOf (evs : List (Event Msg Err)) : List Nat :=
  evs.filterMap fun e =>
    match e with
    | Event.afterSend n => some n
    | _ => none

/-- The backend calls in a trace: entry-point flag (true = dry run) and the
entries submitted. -/
def backendCallsOf (evs : List (Event Msg Err)) : List (Bool × List Msg) :=
  evs.filterMap fun e =>
    match e with
    | Event.backendCall d entries => some (d, entries)
    | _ => none

/-- The counter-metric emissions in a trace: stat name, value and tags. -/
def countsOf (evs : List (Event Msg Err)) : List (String × Nat × List String) :=
  evs.filterMap fun e =>
    match e with
    | Event.countMetric stat v tags => some (stat, v, tags)
    | _ => none

/-- The timing-metric emissions in a trace: stat name and tags. -/
def timingsOf (evs : List (Event Msg Err)) : List (String × List String) :=
  evs.filterMap fun e =>
    match e with
    | Event.timing stat tags => some (stat, tags)
    | _ => none

/-- The call-level error-log emissions in a trace: source tag and error. -/
def logsOf (evs : List (Event Msg Err)) : List (String × Err) :=
  evs.filterMap fun e =>
    match e with
    | Event.logError source er => some (source, er)
    | _ => none

/-- Positions (from `n`) of the requests that supply a before-send hook, in
batch order. -/
def hookedIndices : Nat → List (DriverMessage Body Msg Err) → List Nat
  | _, [] => []
  | n, dm :: rest =>
    if dm.beforeSend.isSome then n :: hookedIndices (n + 1) rest
    else hookedIndices (n + 1) rest

/-- Positions (from `n`) of the requests whose response entry is successful and
that supply an after-send hook, in batch order. -/
def successHooked (responses : List (SendResponse Err)) :
    Nat → List (DriverMessage Body Msg Err) → List Nat
  | _, [] => []
  | n, dm :: rest =>
    if (responses.getD n { success := false, error := none }).success
        && dm.afterSend.isSome then
      n :: successHooked responses (n + 1) rest
    else successHooked responses (n + 1) rest

end Observables

/-- Event erasure that forgets which backend entry point a backend call used;
two runs equal after this erasure behave identically except for the entry
point chosen. -/
def stripDry {Msg Err : Type} : Event Msg Err → Event Msg Err
  | Event.backendCall _ entries => Event.backendCall false entries
  | e => e

/-! Concrete instances used to exhibit witnesses and counterexamples: payloads
are `Bool` (`true` decodes, `false` fails), backend messages and errors are
`String`. -/

/-- A concrete unmarshaller: `true` decodes to the message `"m"`, `false`
fails with a decode error. -/
def exDecode : Bool → Except String String := fun b =>
  if b then Except.ok "m" else Except.error "bad json"

/-- Concrete options with a live metrics sink and logger. -/
def exOpts : TopicOptions :=
  { metricService := some (), logger := some (), tags := ["env", "test"] }

/-- A backend stub whose live entry point reports every entry successful and
whose dry-run entry point fails. -/
def exClientAllOk : FCMClient String String :=
  { sendAll := fun ms => Except.ok
      { successCount := ms.length, failureCount := 0,
        responses := ms.map fun _ => { success := true, error := none } },
    sendAllDryRun := fun _ => Except.error "dry run stub" }

/-- A backend stub reporting entry 0 successful and entry 1 failed. -/
def exClientPartial : FCMClient String String :=
  { sendAll := fun _ => Except.ok
      { successCount := 1, failureCount := 1,
        responses := [{ success := true, error := none },
          { success := false, error := some "invalid token" }] },
    sendAllDryRun := fun _ => Except.error "dry run stub" }

/-- A backend stub that always fails at the call level (transport error). -/
def exClientDown : FCMClient String String :=
  { sendAll := fun _ => Except.error "transport down",
    sendAllDryRun := fun _ => Except.error "transport down" }

/-- A request with a decodable body carrying both hooks, each succeeding. -/
def exDmHooked : DriverMessage Bool String String :=
  { body := true, beforeSend := some fun m => (none, m),
    afterSend := some fun _ => none }

/-- A request with a decodable body and no hooks. -/
def exDmPlain : DriverMessage Bool String String := { body := true }

/-- A request whose body fails to decode. -/
def exDmBad : DriverMessage Bool String String := { body := false }

section Lemmas

variable {Body Msg Err : Type} {α : Type}

/-- The decode / before-send loop fires no event other than before-send
invocations: any event filter that ignores those sees nothing. -/
theorem buildEntries_filterMap_nil (decode : Body → Except Err Msg)
    (f : Event Msg Err → Option α)
    (hf : ∀ k, f (Event.beforeSend k) = none) (n : Nat)
    (dms : List (DriverMessage Body Msg Err)) :
    (buildEntries decode n dms).1.filterMap f = [] := by
  induction dms generalizing n with
  | nil => simp [buildEntries]
  | cons dm rest ih =>
    simp only [buildEntries]
    split
    · simp
    · split
      · simpa using ih (n + 1)
      · split
        · simp [hf]
        · simpa [hf] using ih (n + 1)

/-- The event list of an after-send hook step is empty or the single hook
invocation at its index. -/
theorem afterHookStep_fst (n : Nat) (dm : DriverMessage Body Msg Err)
    (respEntity : SendResponse Err) :
    (afterHookStep n dm respEntity).1 =
      if respEntity.success && dm.afterSend.isSome then [Event.afterSend n]
      else [] := by
  unfold afterHookStep
  rcases respEntity.success with _ | _ <;> rcases hb : dm.afterSend with _ | hook <;>
    simp [hb]

/-- Unfolding of the per-message reconciliation loop on a cons cell, with the
hook step and recursive call spelled out. -/
theorem afterLoop_cons_eq (logger : Option Unit)
    (responses : List (SendResponse Err)) (n : Nat)
    (dm : DriverMessage Body Msg Err)
    (rest : List (DriverMessage Body Msg Err)) :
    afterLoop logger responses n (dm :: rest) =
      match afterHookStep n dm
          (responses.getD n { success := false, error := none }) with
      | (evs, some e) => (evs, Outcome.fail e)
      | (evs, none) =>
        if (responses.getD n { success := false, error := none }).error.isSome
            then
          match logger with
          | none => (evs, Outcome.nilPanic "Logger.Error")
          | some _ =>
            (evs ++ Event.logEntityError n ::
                (afterLoop logger responses (n + 1) rest).1,
              (afterLoop logger responses (n + 1) rest).2)
        else
          (evs ++ (afterLoop logger responses (n + 1) rest).1,
            (afterLoop logger responses (n + 1) rest).2) := rfl

/-- The per-message reconciliation loop fires only after-send invocations and
response-entity error logs: any event filter that ignores both sees nothing. -/
theorem afterLoop_filterMap_nil (logger : Option Unit)
    (responses : List (SendResponse Err)) (f : Event Msg Err → Option α)
    (hf1 : ∀ k, f (Event.afterSend k) = none)
    (hf2 : ∀ k, f (Event.logEntityError k) = none) (n : Nat)
    (dms : List (DriverMessage Body Msg Err)) :
    (afterLoop logger responses n dms).1.filterMap f = [] := by
  induction dms generalizing n with
  | nil => simp [afterLoop]
  | cons dm rest ih =>
    rw [afterLoop_cons_eq]
    rcases hoe : afterHookStep n dm
        (responses.getD n { success := false, error := none }) with ⟨evs, oerr⟩
    have hevs : evs.filterMap f = [] := by
      have h1 := afterHookStep_fst n dm
        (responses.getD n { success := false, error := none })
      rw [hoe] at h1
      have h2 : evs = if ((responses.getD n
          { success := false, error := none }).success
            && dm.afterSend.isSome) = true then [Event.afterSend n]
          else [] := h1
      rw [h2]
      split <;> simp [hf1]
    rcases oerr with _ | e
    · simp only []
      split
      · rcases logger with _ | u
        · simpa using hevs
        · simp [List.filterMap_append, hevs, hf2, ih (n + 1)]
      · simp [List.filterMap_append, hevs, ih (n + 1)]
    · simpa using hevs

/-- The full-success second pass fires no event other than after-send
invocations: any event filter that ignores those sees nothing. -/
theorem fullSuccessLoop_filterMap_nil (responses : List (SendResponse Err))
    (f : Event Msg Err → Option α)
    (hf : ∀ k, f (Event.afterSend k) = none) (n : Nat)
    (dms : List (DriverMessage Body Msg Err)) :
    (fullSuccessLoop responses n dms).1.filterMap f = [] := by
  induction dms generalizing n with
  | nil => simp [fullSuccessLoop]
  | cons dm rest ih =>
    simp only [fullSuccessLoop]
    split
    · simpa using ih (n + 1)
    · split
      · simp [hf]
      · simpa [hf] using ih (n + 1)

/-- The reconciliation tail of `SendBatch` only appends after-send invocations
and response-entity error logs to the trace accumulated so far. -/
theorem sendBatchTail_filterMap (opts : TopicOptions) (resp : BatchResponse Err)
    (dms : List (DriverMessage Body Msg Err)) (pre : List (Event Msg Err))
    (f : Event Msg Err → Option α)
    (hf1 : ∀ k, f (Event.afterSend k) = none)
    (hf2 : ∀ k, f (Event.logEntityError k) = none) :
    (sendBatchTail opts resp dms pre).2.filterMap f = pre.filterMap f := by
  unfold sendBatchTail
  have hA := afterLoop_filterMap_nil opts.logger resp.responses f hf1 hf2 0 dms
  rcases hAL : afterLoop opts.logger resp.responses 0 dms with ⟨evsA, outA⟩
  rw [hAL] at hA
  have hA2 : evsA.filterMap f = [] := hA
  rcases outA with _ | e | m
  · simp only [sendBatchTailAfter]
    by_cases hsc : resp.successCount = dms.length
    · rw [if_pos hsc]
      rcases hfs : fullSuccessLoop resp.responses 0 dms with ⟨evsB, outB⟩
      have hB := fullSuccessLoop_filterMap_nil resp.responses f hf1 0 dms
      rw [hfs] at hB
      have hB2 : evsB.filterMap f = [] := hB
      simp only [sendBatchTailFull]
      rw [List.filterMap_append, List.filterMap_append, hA2, hB2,
        List.append_nil, List.append_nil]
    · rw [if_neg hsc]
      rw [List.filterMap_append, hA2, List.append_nil]
  · simp only [sendBatchTailAfter]
    rw [List.filterMap_append, hA2, List.append_nil]
  · simp only [sendBatchTailAfter]
    rw [List.filterMap_append, hA2, List.append_nil]

/-- The body of `SendBatch` (everything before the deferred `Timing` call)
adds only backend-call, log, counter-metric and reconciliation events to the
decode / before-send trace: a filter ignoring all of those sees exactly the
before-send events of the decode loop. -/
theorem sendBatchCore_filterMap_pure (opts : TopicOptions)
    (client : FCMClient Msg Err) (decode : Body → Except Err Msg)
    (dms : List (DriverMessage Body Msg Err)) (f : Event Msg Err → Option α)
    (hfA : ∀ k, f (Event.afterSend k) = none)
    (hfL : ∀ k, f (Event.logEntityError k) = none)
    (hfB : ∀ b ms, f (Event.backendCall b ms) = none)
    (hfE : ∀ s e, f (Event.logError s e) = none)
    (hfC : ∀ s v t, f (Event.countMetric s v t) = none) :
    (sendBatchCore opts client decode dms).2.filterMap f =
      (buildEntries decode 0 dms).1.filterMap f := by
  unfold sendBatchCore
  rcases hb : buildEntries decode 0 dms with ⟨evs0, r⟩
  rcases r with e | entries
  · rfl
  · simp only [sendBatchAfterBuild, sendBatchCall]
    rcases hcall : (if opts.dryRun then client.sendAllDryRun entries
        else client.sendAll entries) with e | resp
    · simp only [sendBatchResp]
      rcases opts.logger with _ | u
      · simp [List.filterMap_append, hfB]
      · simp [List.filterMap_append, hfB, hfE]
    · simp only [sendBatchResp]
      by_cases hfc : resp.failureCount > 0
      · rw [if_pos hfc]
        rcases opts.metricService with _ | u
        · simp [List.filterMap_append, hfB]
        · rw [sendBatchTail_filterMap _ _ _ _ f hfA hfL]
          simp [List.filterMap_append, hfB, hfC]
      · rw [if_neg hfc]
        rw [sendBatchTail_filterMap _ _ _ _ f hfA hfL]
        simp [List.filterMap_append, hfB]

/-- Every position recorded by `hookedIndices` is at least the start index. -/
theorem hookedIndices_ge (dms : List (DriverMessage Body Msg Err)) (n : Nat) :
    ∀ k ∈ hookedIndices n dms, n ≤ k := by
  induction dms generalizing n with
  | nil => intro k hk; simp [hookedIndices] at hk
  | cons dm rest ih =>
    intro k hk
    simp only [hookedIndices] at hk
    split at hk
    · rcases List.mem_cons.mp hk with rfl | hk2
      · exact Nat.le_refl _
      · exact Nat.le_of_succ_le (ih (n + 1) k hk2)
    · exact Nat.le_of_succ_le (ih (n + 1) k hk)

/-- The positions recorded by `hookedIndices` are strictly increasing: no
position repeats. -/
theorem hookedIndices_pairwise (dms : List (DriverMessage Body Msg Err))
    (n : Nat) : List.Pairwise (· < ·) (hookedIndices n dms) := by
  induction dms generalizing n with
  | nil => simp [hookedIndices]
  | cons dm rest ih =>
    simp only [hookedIndices]
    split
    · exact List.Pairwise.cons
        (fun k hk => Nat.lt_of_succ_le (hookedIndices_ge rest (n + 1) k hk))
        (ih (n + 1))
    · exact ih (n + 1)

/-- `hookedIndices` records one position per request that supplies a
before-send hook. -/
theorem hookedIndices_length (dms : List (DriverMessage Body Msg Err))
    (n : Nat) :
    (hookedIndices n dms).length =
      dms.countP fun dm => dm.beforeSend.isSome := by
  induction dms generalizing n with
  | nil => simp [hookedIndices]
  | cons dm rest ih =>
    simp only [hookedIndices, List.countP_cons]
    split
    case _ h => simp [h, ih (n + 1), Nat.add_comm]
    case _ h =>
      have hb : dm.beforeSend.isSome = false := by
        rcases hbs : dm.beforeSend with _ | f
        · rfl
        · exact absurd (hbs ▸ rfl) h
      simp [hb, ih (n + 1)]

/-- Every position recorded by `successHooked` is at least the start index. -/
theorem successHooked_ge (responses : List (SendResponse Err))
    (dms : List (DriverMessage Body Msg Err)) (n : Nat) :
    ∀ k ∈ successHooked responses n dms, n ≤ k := by
  induction dms generalizing n with
  | nil => intro k hk; simp [successHooked] at hk
  | cons dm rest ih =>
    intro k hk
    simp only [successHooked] at hk
    split at hk
    · rcases List.mem_cons.mp hk with rfl | hk2
      · exact Nat.le_refl _
      · exact Nat.le_of_succ_le (ih (n + 1) k hk2)
    · exact Nat.le_of_succ_le (ih (n + 1) k hk)

/-- The positions recorded by `successHooked` are strictly increasing: no
position repeats. -/
theorem successHooked_pairwise (responses : List (SendResponse Err))
    (dms : List (DriverMessage Body Msg Err)) (n : Nat) :
    List.Pairwise (· < ·) (successHooked responses n dms) := by
  induction dms generalizing n with
  | nil => simp [successHooked]
  | cons dm rest ih =>
    simp only [successHooked]
    split
    · exact List.Pairwise.cons
        (fun k hk =>
          Nat.lt_of_succ_le (successHooked_ge responses rest (n + 1) k hk))
        (ih (n + 1))
    · exact ih (n + 1)

/-- Every position recorded by `successHooked` has a successful response entry
and a supplied after-send hook. -/
theorem successHooked_success (responses : List (SendResponse Err))
    (dms : List (DriverMessage Body Msg Err)) (n : Nat) :
    ∀ k ∈ successHooked responses n dms,
      (responses.getD k { success := false, error := none }).success = true := by
  induction dms generalizing n with
  | nil => intro k hk; simp [successHooked] at hk
  | cons dm rest ih =>
    intro k hk
    simp only [successHooked] at hk
    split at hk
    case _ h =>
      rcases List.mem_cons.mp hk with rfl | hk2
      · exact (Bool.and_eq_true ..).mp h |>.1
      · exact ih (n + 1) k hk2
    case _ h => exact ih (n + 1) k hk

/-- When every payload decodes and every before-send hook reports success, the
decode / before-send loop fires exactly the supplied hooks, in batch order,
and produces an entries slice. -/
theorem buildEntries_ok (decode : Body → Except Err Msg)
    (dms : List (DriverMessage Body Msg Err))
    (hdec : ∀ dm ∈ dms, ∃ m, decode dm.body = Except.ok m)
    (hhook : ∀ dm ∈ dms, ∀ f, dm.beforeSend = some f → ∀ m, (f m).1 = none)
    (n : Nat) :
    (buildEntries decode n dms).1 =
        (hookedIndices n dms).map Event.beforeSend ∧
      ∃ ms, (buildEntries decode n dms).2 = Except.ok ms := by
  induction dms generalizing n with
  | nil => exact ⟨rfl, [], rfl⟩
  | cons dm rest ih =>
    obtain ⟨entry, hentry⟩ := hdec dm (List.mem_cons_self _ _)
    obtain ⟨ih1, ms, ih2⟩ := ih
      (fun d hm => hdec d (List.mem_cons_of_mem _ hm))
      (fun d hm => hhook d (List.mem_cons_of_mem _ hm)) (n + 1)
    rcases hb : dm.beforeSend with _ | hook
    · have heq : buildEntries decode n (dm :: rest) =
          ((buildEntries decode (n + 1) rest).1,
            (buildEntries decode (n + 1) rest).2.map fun ms => entry :: ms) := by
        simp only [buildEntries, hentry, hb]
      rw [heq]
      refine ⟨?_, entry :: ms, ?_⟩
      · simp [hookedIndices, hb, ih1]
      · simp [ih2, Except.map]
    · rcases hh : hook entry with ⟨oe, entry2⟩
      have hoe : oe = none := by
        have h := hhook dm (List.mem_cons_self _ _) hook hb entry
        rw [hh] at h
        exact h
      subst hoe
      have heq : buildEntries decode n (dm :: rest) =
          (Event.beforeSend n :: (buildEntries decode (n + 1) rest).1,
            (buildEntries decode (n + 1) rest).2.map fun ms => entry2 :: ms) := by
        simp only [buildEntries, hentry, hb, hh]
      rw [heq]
      refine ⟨?_, entry2 :: ms, ?_⟩
      · simp [hookedIndices, hb, ih1]
      · simp [ih2, Except.map]

/-- When the requests preceding a failing one all decode and their before-send
hooks report success, the decode / before-send loop on the whole batch fires
exactly the preceding hooks and aborts with the failing request's decode
error. -/
theorem buildEntries_abort (decode : Body → Except Err Msg)
    (pre : List (DriverMessage Body Msg Err))
    (dmBad : DriverMessage Body Msg Err)
    (rest : List (DriverMessage Body Msg Err)) (e : Err)
    (hdec : ∀ dm ∈ pre, ∃ m, decode dm.body = Except.ok m)
    (hhook : ∀ dm ∈ pre, ∀ f, dm.beforeSend = some f → ∀ m, (f m).1 = none)
    (hbad : decode dmBad.body = Except.error e) (n : Nat) :
    buildEntries decode n (pre ++ dmBad :: rest) =
      ((hookedIndices n pre).map Event.beforeSend, Except.error e) := by
  induction pre generalizing n with
  | nil =>
    simp only [List.nil_append, buildEntries, hbad, hookedIndices,
      List.map_nil]
  | cons dm ps ih =>
    obtain ⟨entry, hentry⟩ := hdec dm (List.mem_cons_self _ _)
    have ihr := ih (fun d hm => hdec d (List.mem_cons_of_mem _ hm))
      (fun d hm => hhook d (List.mem_cons_of_mem _ hm)) (n + 1)
    rcases hb : dm.beforeSend with _ | hook
    · have heq : buildEntries decode n ((dm :: ps) ++ dmBad :: rest) =
          ((buildEntries decode (n + 1) (ps ++ dmBad :: rest)).1,
            (buildEntries decode (n + 1) (ps ++ dmBad :: rest)).2.map
              fun ms => entry :: ms) := by
        simp only [List.cons_append, buildEntries, hentry, hb]
        rfl
      rw [heq, ihr]
      simp [hookedIndices, hb, Except.map]
    · rcases hh : hook entry with ⟨oe, entry2⟩
      have hoe : oe = none := by
        have h := hhook dm (List.mem_cons_self _ _) hook hb entry
        rw [hh] at h
        exact h
      subst hoe
      have heq : buildEntries decode n ((dm :: ps) ++ dmBad :: rest) =
          (Event.beforeSend n ::
              (buildEntries decode (n + 1) (ps ++ dmBad :: rest)).1,
            (buildEntries decode (n + 1) (ps ++ dmBad :: rest)).2.map
              fun ms => entry2 :: ms) := by
        simp only [List.cons_append, buildEntries, hentry, hb, hh]
        rfl
      rw [heq, ihr]
      simp [hookedIndices, hb, Except.map]

/-- Unfolding of `successHooked` on a cons cell. -/
theorem successHooked_cons_eq (responses : List (SendResponse Err)) (n : Nat)
    (dm : DriverMessage Body Msg Err)
    (rest : List (DriverMessage Body Msg Err)) :
    successHooked responses n (dm :: rest) =
      if ((responses.getD n { success := false, error := none }).success
          && dm.afterSend.isSome) = true then
        n :: successHooked responses (n + 1) rest
      else successHooked responses (n + 1) rest := rfl

/-- A hook step does nothing when the request has no after-send hook. -/
theorem afterHookStep_no_hook (n : Nat) (dm : DriverMessage Body Msg Err)
    (re : SendResponse Err) (h : dm.afterSend = none) :
    afterHookStep n dm re = ([], none) := by
  unfold afterHookStep
  rw [h]
  split
  · rfl
  · rfl

/-- A hook step does nothing when the response entry is not successful. -/
theorem afterHookStep_not_success (n : Nat) (dm : DriverMessage Body Msg Err)
    (re : SendResponse Err) (h : re.success = false) :
    afterHookStep n dm re = ([], none) := by
  unfold afterHookStep
  rw [h]
  rfl

/-- A hook step invokes the after-send hook when the response entry is
successful and the hook exists. -/
theorem afterHookStep_run (n : Nat) (dm : DriverMessage Body Msg Err)
    (re : SendResponse Err) (hook : SendResponse Err → Option Err)
    (hs : re.success = true) (hb : dm.afterSend = some hook) :
    afterHookStep n dm re = ([Event.afterSend n], hook re) := by
  unfold afterHookStep
  rw [hs, hb]
  rfl

/-- With a live logger and after-send hooks that all report success, the
per-message reconciliation loop completes normally and invokes exactly the
hooks of successful entries, in batch order. -/
theorem afterLoop_ok (responses : List (SendResponse Err))
    (dms : List (DriverMessage Body Msg Err))
    (hhook : ∀ dm ∈ dms, ∀ f, dm.afterSend = some f → ∀ r, f r = none)
    (n : Nat) :
    afterSendsOf (afterLoop (some ()) responses n dms).1 =
        successHooked responses n dms ∧
      (afterLoop (some ()) responses n dms).2 = Outcome.ok := by
  induction dms generalizing n with
  | nil => exact ⟨rfl, rfl⟩
  | cons dm rest ih =>
    obtain ⟨ih1, ih2⟩ := ih
      (fun d hm => hhook d (List.mem_cons_of_mem _ hm)) (n + 1)
    rw [afterLoop_cons_eq]
    rcases hb : dm.afterSend with _ | hook
    · rw [afterHookStep_no_hook n dm _ hb]
      have hsh : successHooked responses n (dm :: rest) =
          successHooked responses (n + 1) rest := by
        rw [successHooked_cons_eq, hb]
        simp
      rcases he : (responses.getD n
          { success := false, error := none }).error.isSome with _ | _
      · simp only [he, Bool.false_eq_true, if_false]
        exact ⟨by simpa [afterSendsOf, hsh] using ih1, ih2⟩
      · simp only [he, if_true]
        refine ⟨?_, ih2⟩
        simp only [afterSendsOf, List.filterMap_nil, List.nil_append,
          List.filterMap_cons]
        simpa [afterSendsOf, hsh] using ih1
    · rcases hs : (responses.getD n
          { success := false, error := none }).success with _ | _
      · rw [afterHookStep_not_success n dm _ hs]
        have hsh : successHooked responses n (dm :: rest) =
            successHooked responses (n + 1) rest := by
          rw [successHooked_cons_eq, hs]
          simp
        rcases he : (responses.getD n
            { success := false, error := none }).error.isSome with _ | _
        · simp only [he, Bool.false_eq_true, if_false]
          exact ⟨by simpa [afterSendsOf, hsh] using ih1, ih2⟩
        · simp only [he, if_true]
          refine ⟨?_, ih2⟩
          simp only [afterSendsOf, List.filterMap_nil, List.nil_append,
            List.filterMap_cons]
          simpa [afterSendsOf, hsh] using ih1
      · have hres : hook (responses.getD n
            { success := false, error := none }) = none :=
          hhook dm (List.mem_cons_self _ _) hook hb _
        have hstep : afterHookStep n dm
            (responses.getD n { success := false, error := none }) =
              ([Event.afterSend n], none) := by
          rw [afterHookStep_run n dm _ hook hs hb, hres]
        rw [hstep]
        have hsh : successHooked responses n (dm :: rest) =
            n :: successHooked responses (n + 1) rest := by
          rw [successHooked_cons_eq, hs, hb]
          simp
        rcases he : (responses.getD n
            { success := false, error := none }).error.isSome with _ | _
        · simp only [he, Bool.false_eq_true, if_false]
          refine ⟨?_, ih2⟩
          simp only [afterSendsOf, List.filterMap_cons, List.singleton_append,
            hsh]
          simpa [afterSendsOf] using ih1
        · simp only [he, if_true]
          refine ⟨?_, ih2⟩
          simp only [afterSendsOf, List.filterMap_cons, hsh]
          simpa [afterSendsOf] using ih1

/-- `SendBatch` on an explicit topic literal: the body's result followed by
the deferred `Timing` call. -/
theorem SendBatch_mk_eq (client : FCMClient Msg Err) (opts : TopicOptions)
    (decode : Body → Except Err Msg)
    (dms : List (DriverMessage Body Msg Err)) :
    fcmTopic.SendBatch ⟨client, opts⟩ decode dms =
      match sendBatchCore opts client decode dms with
      | (out, evs) =>
        match opts.metricService with
        | none => (Outcome.nilPanic "MetricService.Timing", evs)
        | some _ =>
          (out, evs ++ [Event.timing "firebase.messagine.sendBatch.latency"
            opts.tags]) := rfl

/-- With a live metrics interface, `SendBatch` returns the body's outcome and
appends the single deferred timing event to the body's trace. -/
theorem SendBatch_eq_of_core (client : FCMClient Msg Err) (opts : TopicOptions)
    (decode : Body → Except Err Msg)
    (dms : List (DriverMessage Body Msg Err)) (out : Outcome Err)
    (evs : List (Event Msg Err)) (hms : opts.metricService = some ())
    (hcore : sendBatchCore opts client decode dms = (out, evs)) :
    fcmTopic.SendBatch ⟨client, opts⟩ decode dms =
      (out, evs ++ [Event.timing "firebase.messagine.sendBatch.latency"
        opts.tags]) := by
  rw [SendBatch_mk_eq, hcore, hms]

/-- After a successful decode / before-send phase, the body of `SendBatch` is
the backend call continuation on the selected entry point's result. -/
theorem sendBatchCore_eq_resp (opts : TopicOptions) (client : FCMClient Msg Err)
    (decode : Body → Except Err Msg)
    (dms : List (DriverMessage Body Msg Err)) (evs0 : List (Event Msg Err))
    (entries : List Msg)
    (hbe : buildEntries decode 0 dms = (evs0, Except.ok entries)) :
    sendBatchCore opts client decode dms =
      sendBatchResp opts dms evs0 entries
        (if opts.dryRun then client.sendAllDryRun entries
         else client.sendAll entries) := by
  unfold sendBatchCore
  rw [hbe]
  rfl

/-- The before-send invocations of a whole `SendBatch` run are exactly those
of its decode / before-send loop, whatever the backend, hooks, logger and
metrics interface do. -/
theorem sendBatch_beforeSendsOf (client : FCMClient Msg Err)
    (opts : TopicOptions) (decode : Body → Except Err Msg)
    (dms : List (DriverMessage Body Msg Err)) :
    beforeSendsOf (fcmTopic.SendBatch ⟨client, opts⟩ decode dms).2 =
      beforeSendsOf (buildEntries decode 0 dms).1 := by
  rw [SendBatch_mk_eq]
  rcases hc : sendBatchCore opts client decode dms with ⟨out, evs⟩
  have hcore : beforeSendsOf evs =
      beforeSendsOf (buildEntries decode 0 dms).1 := by
    have h := sendBatchCore_filterMap_pure opts client decode dms
      (fun e => match e with | Event.beforeSend n => some n | _ => none)
      (fun k => rfl) (fun k => rfl) (fun b ms => rfl) (fun s e => rfl)
      (fun s v t => rfl)
    rw [hc] at h
    exact h
  rcases hm : opts.metricService with _ | u
  · exact hcore
  · show beforeSendsOf (evs ++
        [Event.timing "firebase.messagine.sendBatch.latency" opts.tags]) = _
    unfold beforeSendsOf at hcore ⊢
    rw [List.filterMap_append, hcore]
    simp

/-- The single timing event of a run has no before-send, backend-call, log or
counter content, so the body's trace decides every other observable. -/
theorem sendBatchCore_backendCalls (opts : TopicOptions)
    (client : FCMClient Msg Err) (decode : Body → Except Err Msg)
    (dms : List (DriverMessage Body Msg Err)) :
    backendCallsOf (sendBatchCore opts client decode dms).2 =
      match (buildEntries decode 0 dms).2 with
      | Except.ok entries => [(opts.dryRun, entries)]
      | Except.error _ => [] := by
  unfold sendBatchCore
  rcases hb : buildEntries decode 0 dms with ⟨evs0, r⟩
  have h0 : evs0.filterMap (fun e => match e with
      | Event.backendCall d es => some (d, es) | _ => none) = [] := by
    have h := buildEntries_filterMap_nil decode (fun e => match e with
      | Event.backendCall d es => some (d, es) | _ => none)
      (fun k => rfl) 0 dms
    rw [hb] at h
    exact h
  rcases r with e | entries
  · exact h0
  · show backendCallsOf (sendBatchCall opts client dms evs0 entries).2 =
      [(opts.dryRun, entries)]
    unfold sendBatchCall
    rcases hcall : (if opts.dryRun then client.sendAllDryRun entries
        else client.sendAll entries) with e | resp
    · simp only [sendBatchResp]
      rcases opts.logger with _ | u
      · unfold backendCallsOf
        rw [List.filterMap_append, h0]
        rfl
      · unfold backendCallsOf
        rw [List.filterMap_append, h0]
        rfl
    · simp only [sendBatchResp]
      by_cases hfc : resp.failureCount > 0
      · rw [if_pos hfc]
        rcases opts.metricService with _ | u
        · unfold backendCallsOf
          rw [List.filterMap_append, h0]
          rfl
        · unfold backendCallsOf
          rw [sendBatchTail_filterMap _ _ _ _ _ (fun k => rfl) (fun k => rfl),
            List.filterMap_append, h0]
          rfl
      · rw [if_neg hfc]
        unfold backendCallsOf
        rw [sendBatchTail_filterMap _ _ _ _ _ (fun k => rfl) (fun k => rfl),
          List.filterMap_append, h0]
        rfl

/-- The backend calls of a whole `SendBatch` run: none when the decode /
before-send phase aborts, exactly one through the configured entry point with
the built entries otherwise. -/
theorem sendBatch_backendCalls (client : FCMClient Msg Err)
    (opts : TopicOptions) (decode : Body → Except Err Msg)
    (dms : List (DriverMessage Body Msg Err)) :
    backendCallsOf (fcmTopic.SendBatch ⟨client, opts⟩ decode dms).2 =
      match (buildEntries decode 0 dms).2 with
      | Except.ok entries => [(opts.dryRun, entries)]
      | Except.error _ => [] := by
  rw [SendBatch_mk_eq]
  rcases hc : sendBatchCore opts client decode dms with ⟨out, evs⟩
  have hcore := sendBatchCore_backendCalls opts client decode dms
  rw [hc] at hcore
  rcases hm : opts.metricService with _ | u
  · exact hcore
  · show backendCallsOf (evs ++
        [Event.timing "firebase.messagine.sendBatch.latency" opts.tags]) = _
    unfold backendCallsOf at hcore ⊢
    rw [List.filterMap_append, hcore]
    simp

/-- Projecting the before-send indices back out of a pure before-send event
list is the identity. -/
theorem beforeSendsOf_map_beforeSend (l : List Nat) :
    beforeSendsOf (l.map (Event.beforeSend : Nat → Event Msg Err)) = l := by
  induction l with
  | nil => rfl
  | cons k ks ih =>
    simp only [List.map_cons, beforeSendsOf, List.filterMap_cons] at ih ⊢
    rw [ih]

/-- The reconciliation tail is insensitive to the trace accumulated before it:
its outcome ignores `pre` and its trace is `pre` followed by the events it
fires itself. -/
theorem sendBatchTail_pre (opts : TopicOptions) (resp : BatchResponse Err)
    (dms : List (DriverMessage Body Msg Err)) (pre : List (Event Msg Err)) :
    sendBatchTail opts resp dms pre =
      ((sendBatchTail opts resp dms []).1,
        pre ++ (sendBatchTail opts resp dms []).2) := by
  unfold sendBatchTail
  rcases hAL : afterLoop opts.logger resp.responses 0 dms with ⟨evsA, outA⟩
  rcases outA with _ | e | m
  · simp only [sendBatchTailAfter]
    by_cases hsc : resp.successCount = dms.length
    · rw [if_pos hsc, if_pos hsc]
      rcases hFS : fullSuccessLoop resp.responses 0 dms with ⟨evsB, outB⟩
      simp only [sendBatchTailFull]
      simp
    · rw [if_neg hsc, if_neg hsc]
      simp
  · simp only [sendBatchTailAfter]
    simp
  · simp only [sendBatchTailAfter]
    simp

/-- The continuation from the backend call's result onward behaves identically
under the two dry-run flag values (same options otherwise): same outcome, and
the same trace once the entry-point flag recorded in the backend-call event is
erased. -/
theorem sendBatchResp_flag_equiv (bo : Option BatcherOptions)
    (msv : Option Unit) (tags : List String) (lg : Option Unit)
    (dms : List (DriverMessage Body Msg Err)) (evs0 : List (Event Msg Err))
    (entries : List Msg) (res : Except Err (BatchResponse Err)) :
    (sendBatchResp (⟨true, bo, msv, tags, lg⟩ : TopicOptions) dms evs0
        entries res).1 =
      (sendBatchResp (⟨false, bo, msv, tags, lg⟩ : TopicOptions) dms evs0
        entries res).1 ∧
    (sendBatchResp (⟨true, bo, msv, tags, lg⟩ : TopicOptions) dms evs0
        entries res).2.map stripDry =
      (sendBatchResp (⟨false, bo, msv, tags, lg⟩ : TopicOptions) dms evs0
        entries res).2.map stripDry := by
  rcases res with e | resp
  · simp only [sendBatchResp]
    rcases lg with _ | u
    · exact ⟨rfl, by simp [stripDry]⟩
    · exact ⟨rfl, by simp [stripDry]⟩
  · simp only [sendBatchResp]
    by_cases hfc : resp.failureCount > 0
    · rw [if_pos hfc, if_pos hfc]
      rcases msv with _ | u
      · exact ⟨rfl, by simp [stripDry]⟩
      · rw [sendBatchTail_pre (⟨true, bo, some u, tags, lg⟩ : TopicOptions)
          resp dms _,
          sendBatchTail_pre (⟨false, bo, some u, tags, lg⟩ : TopicOptions)
          resp dms _]
        have hT : sendBatchTail
            (⟨true, bo, some u, tags, lg⟩ : TopicOptions) resp dms [] =
              sendBatchTail (⟨false, bo, some u, tags, lg⟩ : TopicOptions)
                resp dms [] := rfl
        rw [hT]
        exact ⟨rfl, by simp [stripDry]⟩
    · rw [if_neg hfc, if_neg hfc]
      rw [sendBatchTail_pre (⟨true, bo, msv, tags, lg⟩ : TopicOptions)
          resp dms _,
        sendBatchTail_pre (⟨false, bo, msv, tags, lg⟩ : TopicOptions)
          resp dms _]
      have hT : sendBatchTail
          (⟨true, bo, msv, tags, lg⟩ : TopicOptions) resp dms [] =
            sendBatchTail (⟨false, bo, msv, tags, lg⟩ : TopicOptions)
              resp dms [] := rfl
      rw [hT]
      exact ⟨rfl, by simp [stripDry]⟩

end Lemmas

section Claims

variable {Body Msg Err : Type}

/-- Claim C1: the spec says a non-nil error maps to the generic "unknown"
classification and a nil error to "ok"; the code's nil test is inverted, so at
the concrete non-nil error `"boom"` it returns `OK` and at nil it returns
`Unknown`. -/
theorem ErrorCode_inverted_on_concrete_errors :
    fcmTopic.ErrorCode ⟨exClientAllOk, exOpts⟩ (some "boom") = GcErrorCode.OK ∧
      fcmTopic.ErrorCode ⟨exClientAllOk, exOpts⟩ (none : Option String) =
        GcErrorCode.Unknown :=
  ⟨rfl, rfl⟩

/-- Claim C2: on a one-request batch whose only entry the backend reports
successful (so every entry succeeded, no hook errors), the run returns nil but
the request's after-send hook is invoked twice — once by the per-entry pass
and once by the full-success pass — contradicting exactly-once invocation. -/
theorem afterSend_double_invocation_on_full_success :
    (fcmTopic.SendBatch ⟨exClientAllOk, exOpts⟩ exDecode [exDmHooked]).1 =
        Outcome.ok ∧
      afterSendsOf
        (fcmTopic.SendBatch ⟨exClientAllOk, exOpts⟩ exDecode
          [exDmHooked]).2 = [0, 0] := by
  exact ⟨rfl, rfl⟩

/-- Claim C3, counterexample: on the batch `[exDmHooked, exDmBad]` the second
request's payload fails to decode and `SendBatch` returns that decode error
with no backend call and no after-send hook — but the first request's
before-send hook has already been invoked, refuting "no hook (before-send or
after-send) of any request in the batch is invoked". -/
theorem decode_failure_prior_beforeSend_hook_runs :
    (fcmTopic.SendBatch ⟨exClientAllOk, exOpts⟩ exDecode
        [exDmHooked, exDmBad]).1 = Outcome.fail "bad json" ∧
      backendCallsOf (fcmTopic.SendBatch ⟨exClientAllOk, exOpts⟩ exDecode
        [exDmHooked, exDmBad]).2 = [] ∧
      afterSendsOf (fcmTopic.SendBatch ⟨exClientAllOk, exOpts⟩ exDecode
        [exDmHooked, exDmBad]).2 = [] ∧
      beforeSendsOf (fcmTopic.SendBatch ⟨exClientAllOk, exOpts⟩ exDecode
        [exDmHooked, exDmBad]).2 = [0] := by
  refine ⟨rfl, rfl, rfl, rfl⟩

/-- Claim C3, amended: when some request's payload fails to decode and every
request before the first failing one decodes and has a non-failing before-send
hook, `SendBatch` returns that decode error, performs no backend call and
invokes no after-send hook; the before-send hooks invoked are exactly those of
the requests preceding the failing one, in batch order. -/
theorem sendBatch_decode_failure_aborts (opts : TopicOptions)
    (client : FCMClient Msg Err) (decode : Body → Except Err Msg)
    (pre : List (DriverMessage Body Msg Err))
    (dmBad : DriverMessage Body Msg Err)
    (rest : List (DriverMessage Body Msg Err)) (e : Err)
    (hms : opts.metricService = some ())
    (hdec : ∀ dm ∈ pre, ∃ m, decode dm.body = Except.ok m)
    (hhook : ∀ dm ∈ pre, ∀ f, dm.beforeSend = some f → ∀ m, (f m).1 = none)
    (hbad : decode dmBad.body = Except.error e) :
    (fcmTopic.SendBatch ⟨client, opts⟩ decode (pre ++ dmBad :: rest)).1 =
        Outcome.fail e ∧
      backendCallsOf (fcmTopic.SendBatch ⟨client, opts⟩ decode
        (pre ++ dmBad :: rest)).2 = [] ∧
      afterSendsOf (fcmTopic.SendBatch ⟨client, opts⟩ decode
        (pre ++ dmBad :: rest)).2 = [] ∧
      beforeSendsOf (fcmTopic.SendBatch ⟨client, opts⟩ decode
        (pre ++ dmBad :: rest)).2 = hookedIndices 0 pre := by
  have habort := buildEntries_abort decode pre dmBad rest e hdec hhook hbad 0
  have hcore : sendBatchCore opts client decode (pre ++ dmBad :: rest) =
      (Outcome.fail e, (hookedIndices 0 pre).map Event.beforeSend) := by
    unfold sendBatchCore
    rw [habort]
    rfl
  have hsb := SendBatch_eq_of_core client opts decode (pre ++ dmBad :: rest)
    (Outcome.fail e) ((hookedIndices 0 pre).map Event.beforeSend) hms hcore
  rw [hsb]
  refine ⟨rfl, ?_, ?_, ?_⟩
  · unfold backendCallsOf
    rw [List.filterMap_append]
    have h0 : ((hookedIndices 0 pre).map
        (Event.beforeSend : Nat → Event Msg Err)).filterMap
        (fun e => match e with
          | Event.backendCall d es => some (d, es)
          | _ => none) = [] := by
      rw [List.filterMap_eq_nil_iff]
      intro a ha
      rcases List.mem_map.mp ha with ⟨k, _, rfl⟩
      rfl
    rw [h0]
    rfl
  · unfold afterSendsOf
    rw [List.filterMap_append]
    have h0 : ((hookedIndices 0 pre).map
        (Event.beforeSend : Nat → Event Msg Err)).filterMap
        (fun e => match e with
          | Event.afterSend n => some n
          | _ => none) = [] := by
      rw [List.filterMap_eq_nil_iff]
      intro a ha
      rcases List.mem_map.mp ha with ⟨k, _, rfl⟩
      rfl
    rw [h0]
    rfl
  · unfold beforeSendsOf
    rw [List.filterMap_append]
    have h0 : ((hookedIndices 0 pre).map
        (Event.beforeSend : Nat → Event Msg Err)).filterMap
        (fun e => match e with
          | Event.beforeSend n => some n
          | _ => none) = hookedIndices 0 pre := by
      induction hookedIndices 0 pre with
      | nil => rfl
      | cons k ks ih => simp [List.filterMap_cons, ih]
    rw [h0]
    simp

/-- Witness for the amended C3 theorem at a concrete batch: one good hooked
request followed by an undecodable one. -/
theorem sendBatch_decode_failure_aborts_witness :
    (fcmTopic.SendBatch ⟨exClientAllOk, exOpts⟩ exDecode
        ([exDmHooked] ++ exDmBad :: [])).1 = Outcome.fail "bad json" ∧
      beforeSendsOf (fcmTopic.SendBatch ⟨exClientAllOk, exOpts⟩ exDecode
        ([exDmHooked] ++ exDmBad :: [])).2 = hookedIndices 0 [exDmHooked] := by
  have h := sendBatch_decode_failure_aborts exOpts exClientAllOk exDecode
    [exDmHooked] exDmBad [] "bad json" rfl
    (by
      intro dm hm
      rcases List.mem_singleton.mp hm with rfl
      exact ⟨"m", rfl⟩)
    (by
      intro dm hm f hf m
      rcases List.mem_singleton.mp hm with rfl
      have hf2 : (some fun m => ((none : Option String), m)) = some f := hf
      rcases Option.some.injEq .. |>.mp hf2 with rfl
      rfl)
    rfl
  exact ⟨h.1, h.2.2.2⟩

/-- Claim C4: `openFCMTopic` accepts a nil options pointer and substitutes the
zero-valued options, whose metrics interface and logger are nil; but every
`SendBatch` run ends in the deferred `MetricService.Timing` call, which under
those defaults is a method call through a nil interface — modelled as the
`nilPanic "MetricService.Timing"` outcome on every input. -/
theorem sendBatch_nil_options_timing_panic (client : FCMClient Msg Err)
    (decode : Body → Except Err Msg)
    (dms : List (DriverMessage Body Msg Err)) :
    (openFCMTopic client none).opts.metricService = none ∧
      (openFCMTopic client none).opts.logger = none ∧
      ((openFCMTopic client none).SendBatch decode dms).1 =
        Outcome.nilPanic "MetricService.Timing" := by
  refine ⟨rfl, rfl, ?_⟩
  show (fcmTopic.SendBatch ⟨client, {}⟩ decode dms).1 = _
  rw [SendBatch_mk_eq]

/-- Claim C5: for a batch whose decode / before-send phase succeeds and whose
backend call returns a response (no transport error), the failure counter
metric `firebase.message.sendBatch.failure` is emitted exactly when the
backend-reported failure count is positive, exactly once, with exactly that
count and the configured static tags — regardless of how many per-entry
errors are logged. -/
theorem sendBatch_failure_metric_exact (opts : TopicOptions)
    (client : FCMClient Msg Err) (decode : Body → Except Err Msg)
    (dms : List (DriverMessage Body Msg Err)) (evs0 : List (Event Msg Err))
    (entries : List Msg) (resp : BatchResponse Err)
    (hms : opts.metricService = some ())
    (hbe : buildEntries decode 0 dms = (evs0, Except.ok entries))
    (hcall : (if opts.dryRun then client.sendAllDryRun entries
              else client.sendAll entries) = Except.ok resp) :
    countsOf (fcmTopic.SendBatch ⟨client, opts⟩ decode dms).2 =
      if resp.failureCount > 0 then
        [("firebase.message.sendBatch.failure", resp.failureCount, opts.tags)]
      else [] := by
  have h0 : evs0.filterMap (fun e => match e with
      | Event.countMetric s v t => some (s, v, t)
      | _ => none) = [] := by
    have h := buildEntries_filterMap_nil decode (fun e => match e with
      | Event.countMetric s v t => some (s, v, t)
      | _ => none) (fun k => rfl) 0 dms
    rw [hbe] at h
    exact h
  have hcounts : countsOf
      (sendBatchResp opts dms evs0 entries (Except.ok resp)).2 =
      if resp.failureCount > 0 then
        [("firebase.message.sendBatch.failure", resp.failureCount, opts.tags)]
      else [] := by
    simp only [sendBatchResp]
    by_cases hfc : resp.failureCount > 0
    · rw [if_pos hfc, if_pos hfc, hms]
      show countsOf (sendBatchTail opts resp dms (evs0 ++
        [Event.backendCall opts.dryRun entries,
          Event.countMetric "firebase.message.sendBatch.failure"
            resp.failureCount opts.tags])).2 = _
      unfold countsOf
      rw [sendBatchTail_filterMap _ _ _ _ _ (fun k => rfl) (fun k => rfl),
        List.filterMap_append, h0]
      rfl
    · rw [if_neg hfc, if_neg hfc]
      show countsOf (sendBatchTail opts resp dms (evs0 ++
        [Event.backendCall opts.dryRun entries])).2 = _
      unfold countsOf
      rw [sendBatchTail_filterMap _ _ _ _ _ (fun k => rfl) (fun k => rfl),
        List.filterMap_append, h0]
      rfl
  have hcore : sendBatchCore opts client decode dms =
      sendBatchResp opts dms evs0 entries (Except.ok resp) := by
    rw [sendBatchCore_eq_resp opts client decode dms evs0 entries hbe, hcall]
  rcases hr : sendBatchResp opts dms evs0 entries (Except.ok resp)
    with ⟨out, evs⟩
  rw [hr] at hcounts
  have hsb := SendBatch_eq_of_core client opts decode dms out evs hms
    (hcore.trans hr)
  rw [hsb]
  unfold countsOf at hcounts ⊢
  rw [List.filterMap_append, hcounts]
  simp

/-- Witness for the C5 theorem on the concrete partial-failure batch: one of
two entries fails, so a single failure counter of value 1 with the configured
tags is emitted. -/
theorem sendBatch_failure_metric_exact_witness :
    countsOf (fcmTopic.SendBatch ⟨exClientPartial, exOpts⟩ exDecode
        [exDmHooked, exDmPlain]).2 =
      [("firebase.message.sendBatch.failure", 1, ["env", "test"])] := by
  have h := sendBatch_failure_metric_exact exOpts exClientPartial exDecode
    [exDmHooked, exDmPlain] [Event.beforeSend 0] ["m", "m"]
    { successCount := 1, failureCount := 1,
      responses := [{ success := true, error := none },
        { success := false, error := some "invalid token" }] }
    rfl rfl rfl
  rw [h]
  rfl

/-- Claim C6: when the backend call itself fails at the call level, `SendBatch`
logs that error at error severity with the component tag
`pubsub.firebase.sendBatch.response`, returns it as the batch outcome, runs no
after-send hook and emits no failure-count metric. -/
theorem sendBatch_transport_error_terminal (opts : TopicOptions)
    (client : FCMClient Msg Err) (decode : Body → Except Err Msg)
    (dms : List (DriverMessage Body Msg Err)) (evs0 : List (Event Msg Err))
    (entries : List Msg) (e : Err)
    (hms : opts.metricService = some ())
    (hlog : opts.logger = some ())
    (hbe : buildEntries decode 0 dms = (evs0, Except.ok entries))
    (hcall : (if opts.dryRun then client.sendAllDryRun entries
              else client.sendAll entries) = Except.error e) :
    (fcmTopic.SendBatch ⟨client, opts⟩ decode dms).1 = Outcome.fail e ∧
      logsOf (fcmTopic.SendBatch ⟨client, opts⟩ decode dms).2 =
        [("pubsub.firebase.sendBatch.response", e)] ∧
      afterSendsOf (fcmTopic.SendBatch ⟨client, opts⟩ decode dms).2 = [] ∧
      countsOf (fcmTopic.SendBatch ⟨client, opts⟩ decode dms).2 = [] := by
  have hfull : sendBatchCore opts client decode dms =
      (Outcome.fail e, evs0 ++ [Event.backendCall opts.dryRun entries,
        Event.logError "pubsub.firebase.sendBatch.response" e]) := by
    rw [sendBatchCore_eq_resp opts client decode dms evs0 entries hbe, hcall]
    simp only [sendBatchResp]
    rw [hlog]
  have hsb := SendBatch_eq_of_core client opts decode dms _ _ hms hfull
  rw [hsb]
  refine ⟨rfl, ?_, ?_, ?_⟩
  · have h0 : evs0.filterMap (fun ev => match ev with
        | Event.logError s er => some (s, er)
        | _ => none) = [] := by
      have h := buildEntries_filterMap_nil decode (fun ev => match ev with
        | Event.logError s er => some (s, er)
        | _ => none) (fun k => rfl) 0 dms
      rw [hbe] at h
      exact h
    unfold logsOf
    rw [List.filterMap_append, List.filterMap_append, h0]
    rfl
  · have h0 : evs0.filterMap (fun ev => match ev with
        | Event.afterSend n => some n
        | _ => none) = [] := by
      have h := buildEntries_filterMap_nil decode (fun ev => match ev with
        | Event.afterSend n => some n
        | _ => none) (fun k => rfl) 0 dms
      rw [hbe] at h
      exact h
    unfold afterSendsOf
    rw [List.filterMap_append, List.filterMap_append, h0]
    rfl
  · have h0 : evs0.filterMap (fun ev => match ev with
        | Event.countMetric s v t => some (s, v, t)
        | _ => none) = [] := by
      have h := buildEntries_filterMap_nil decode (fun ev => match ev with
        | Event.countMetric s v t => some (s, v, t)
        | _ => none) (fun k => rfl) 0 dms
      rw [hbe] at h
      exact h
    unfold countsOf
    rw [List.filterMap_append, List.filterMap_append, h0]
    rfl

/-- Witness for the C6 theorem against the always-failing backend stub. -/
theorem sendBatch_transport_error_terminal_witness :
    (fcmTopic.SendBatch ⟨exClientDown, exOpts⟩ exDecode [exDmPlain]).1 =
        Outcome.fail "transport down" ∧
      logsOf (fcmTopic.SendBatch ⟨exClientDown, exOpts⟩ exDecode
        [exDmPlain]).2 =
        [("pubsub.firebase.sendBatch.response", "transport down")] := by
  have h := sendBatch_transport_error_terminal exOpts exClientDown exDecode
    [exDmPlain] [] ["m"] "transport down" rfl rfl rfl rfl
  exact ⟨h.1, h.2.1⟩

/-- Claim C7: when every payload decodes and no before-send hook fails, the
before-send invocations of the run are exactly the positions that supply a
hook — as many invocations as hook-supplying requests, each position exactly
once (the invocation list is strictly increasing), in batch order. -/
theorem sendBatch_beforeSend_hooks_once (opts : TopicOptions)
    (client : FCMClient Msg Err) (decode : Body → Except Err Msg)
    (dms : List (DriverMessage Body Msg Err))
    (hdec : ∀ dm ∈ dms, ∃ m, decode dm.body = Except.ok m)
    (hhook : ∀ dm ∈ dms, ∀ f, dm.beforeSend = some f → ∀ m, (f m).1 = none) :
    beforeSendsOf (fcmTopic.SendBatch ⟨client, opts⟩ decode dms).2 =
        hookedIndices 0 dms ∧
      (hookedIndices 0 dms).length =
        dms.countP (fun dm => dm.beforeSend.isSome) ∧
      List.Pairwise (· < ·) (hookedIndices 0 dms) := by
  obtain ⟨h1, ms, h2⟩ := buildEntries_ok decode dms hdec hhook 0
  refine ⟨?_, hookedIndices_length dms 0, hookedIndices_pairwise dms 0⟩
  rw [sendBatch_beforeSendsOf, h1, beforeSendsOf_map_beforeSend]

/-- Witness for the C7 theorem: a batch with hooks at positions 0 and 2 fires
before-send exactly at `[0, 2]`. -/
theorem sendBatch_beforeSend_hooks_once_witness :
    beforeSendsOf (fcmTopic.SendBatch ⟨exClientAllOk, exOpts⟩ exDecode
        [exDmHooked, exDmPlain, exDmHooked]).2 = [0, 2] ∧
      (hookedIndices 0 [exDmHooked, exDmPlain, exDmHooked]).length = 2 := by
  have h := sendBatch_beforeSend_hooks_once exOpts exClientAllOk exDecode
    [exDmHooked, exDmPlain, exDmHooked]
    (by
      intro dm hm
      rcases List.mem_cons.mp hm with rfl | hm
      · exact ⟨"m", rfl⟩
      rcases List.mem_cons.mp hm with rfl | hm
      · exact ⟨"m", rfl⟩
      rcases List.mem_cons.mp hm with rfl | hm
      · exact ⟨"m", rfl⟩
      · simp at hm)
    (by
      intro dm hm f hf m
      rcases List.mem_cons.mp hm with rfl | hm
      · have hf2 : (some fun m => ((none : Option String), m)) = some f := hf
        rcases Option.some.injEq .. |>.mp hf2 with rfl
        rfl
      rcases List.mem_cons.mp hm with rfl | hm
      · exact Option.noConfusion hf
      rcases List.mem_cons.mp hm with rfl | hm
      · have hf2 : (some fun m => ((none : Option String), m)) = some f := hf
        rcases Option.some.injEq .. |>.mp hf2 with rfl
        rfl
      · simp at hm)
  exact ⟨h.1.trans rfl, rfl⟩

/-- Claim C8: with a live metrics interface, every `SendBatch` run emits the
latency timing metric `firebase.messagine.sendBatch.latency` exactly once,
whatever the outcome, and it is the last event of the run — the deferred call
fires at function exit, after decode, hooks and the backend call. -/
theorem sendBatch_timing_exactly_once (opts : TopicOptions)
    (client : FCMClient Msg Err) (decode : Body → Except Err Msg)
    (dms : List (DriverMessage Body Msg Err))
    (hms : opts.metricService = some ()) :
    timingsOf (fcmTopic.SendBatch ⟨client, opts⟩ decode dms).2 =
        [("firebase.messagine.sendBatch.latency", opts.tags)] ∧
      (fcmTopic.SendBatch ⟨client, opts⟩ decode dms).2.getLast? =
        some (Event.timing "firebase.messagine.sendBatch.latency"
          opts.tags) := by
  rcases hc : sendBatchCore opts client decode dms with ⟨out, evs⟩
  have hsb := SendBatch_eq_of_core client opts decode dms out evs hms hc
  rw [hsb]
  have hevs : evs.filterMap (fun e => match e with
      | Event.timing s t => some (s, t)
      | _ => none) = [] := by
    have h := sendBatchCore_filterMap_pure opts client decode dms
      (fun e => match e with
        | Event.timing s t => some (s, t)
        | _ => none)
      (fun k => rfl) (fun k => rfl) (fun b ms => rfl) (fun s e => rfl)
      (fun s v t => rfl)
    rw [hc] at h
    have h3 := buildEntries_filterMap_nil decode (fun e => match e with
      | Event.timing s t => some (s, t)
      | _ => none) (fun k => rfl) 0 dms
    exact h.trans h3
  constructor
  · unfold timingsOf
    rw [List.filterMap_append, hevs]
    rfl
  · exact List.getLast?_concat _

/-- Witness for the C8 theorem on a concrete successful run. -/
theorem sendBatch_timing_exactly_once_witness :
    timingsOf (fcmTopic.SendBatch ⟨exClientAllOk, exOpts⟩ exDecode
        [exDmPlain]).2 =
      [("firebase.messagine.sendBatch.latency", ["env", "test"])] :=
  (sendBatch_timing_exactly_once exOpts exClientAllOk exDecode
    [exDmPlain] rfl).1

/-- Claim C9: with the dry-run flag set, `SendBatch` invokes the backend's
dry-run entry point — every recorded backend call carries the dry-run flag —
and the run is otherwise identical to a run with the flag clear against a
client whose live entry point is the dry-run one: same outcome and, once the
recorded entry-point flag is erased, the same decode / hook / logging / metric
trace. -/
theorem sendBatch_dryRun_selects_dry_entry_point (bo : Option BatcherOptions)
    (msv : Option Unit) (tags : List String) (lg : Option Unit)
    (client : FCMClient Msg Err) (decode : Body → Except Err Msg)
    (dms : List (DriverMessage Body Msg Err)) :
    (fcmTopic.SendBatch ⟨client, ⟨true, bo, msv, tags, lg⟩⟩ decode dms).1 =
        (fcmTopic.SendBatch ⟨⟨client.sendAllDryRun, client.sendAllDryRun⟩,
          ⟨false, bo, msv, tags, lg⟩⟩ decode dms).1 ∧
      (fcmTopic.SendBatch ⟨client, ⟨true, bo, msv, tags, lg⟩⟩ decode
            dms).2.map stripDry =
        (fcmTopic.SendBatch ⟨⟨client.sendAllDryRun, client.sendAllDryRun⟩,
          ⟨false, bo, msv, tags, lg⟩⟩ decode dms).2.map stripDry ∧
      (∀ b ms2, (b, ms2) ∈ backendCallsOf
        (fcmTopic.SendBatch ⟨client, ⟨true, bo, msv, tags, lg⟩⟩ decode
          dms).2 → b = true) := by
  have hthird : ∀ b ms2, (b, ms2) ∈ backendCallsOf
      (fcmTopic.SendBatch ⟨client, ⟨true, bo, msv, tags, lg⟩⟩ decode
        dms).2 → b = true := by
    intro b ms2 hmem
    rw [sendBatch_backendCalls] at hmem
    rcases hbr : (buildEntries decode 0 dms).2 with e | entries
    · rw [hbr] at hmem
      simp at hmem
    · rw [hbr] at hmem
      simp at hmem
      exact hmem.1
  have hmain :
      (fcmTopic.SendBatch (⟨client, ⟨true, bo, msv, tags, lg⟩⟩ :
          fcmTopic Msg Err) decode dms).1 =
        (fcmTopic.SendBatch (⟨⟨client.sendAllDryRun, client.sendAllDryRun⟩,
          ⟨false, bo, msv, tags, lg⟩⟩ : fcmTopic Msg Err) decode dms).1 ∧
      (fcmTopic.SendBatch (⟨client, ⟨true, bo, msv, tags, lg⟩⟩ :
          fcmTopic Msg Err) decode dms).2.map stripDry =
        (fcmTopic.SendBatch (⟨⟨client.sendAllDryRun, client.sendAllDryRun⟩,
          ⟨false, bo, msv, tags, lg⟩⟩ : fcmTopic Msg Err) decode
            dms).2.map stripDry := by
    rcases hb : buildEntries decode 0 dms with ⟨evs0, r⟩
    rcases r with e | entries
    · have h1 : sendBatchCore (⟨true, bo, msv, tags, lg⟩ : TopicOptions)
          client decode dms = (Outcome.fail e, evs0) := by
        unfold sendBatchCore
        rw [hb]
        rfl
      have h2 : sendBatchCore (⟨false, bo, msv, tags, lg⟩ : TopicOptions)
          ⟨client.sendAllDryRun, client.sendAllDryRun⟩ decode dms =
            (Outcome.fail e, evs0) := by
        unfold sendBatchCore
        rw [hb]
        rfl
      have hrr : fcmTopic.SendBatch
          (⟨client, ⟨true, bo, msv, tags, lg⟩⟩ : fcmTopic Msg Err) decode
            dms =
          fcmTopic.SendBatch (⟨⟨client.sendAllDryRun, client.sendAllDryRun⟩,
            ⟨false, bo, msv, tags, lg⟩⟩ : fcmTopic Msg Err) decode dms := by
        rw [SendBatch_mk_eq, SendBatch_mk_eq, h1, h2]
      rw [hrr]
      exact ⟨rfl, rfl⟩
    · have h1 : sendBatchCore (⟨true, bo, msv, tags, lg⟩ : TopicOptions)
          client decode dms =
            sendBatchResp (⟨true, bo, msv, tags, lg⟩ : TopicOptions) dms
              evs0 entries (client.sendAllDryRun entries) :=
        (sendBatchCore_eq_resp _ client decode dms evs0 entries hb).trans
          (by rfl)
      have h2 : sendBatchCore (⟨false, bo, msv, tags, lg⟩ : TopicOptions)
          ⟨client.sendAllDryRun, client.sendAllDryRun⟩ decode dms =
            sendBatchResp (⟨false, bo, msv, tags, lg⟩ : TopicOptions) dms
              evs0 entries (client.sendAllDryRun entries) :=
        (sendBatchCore_eq_resp _ _ decode dms evs0 entries hb).trans
          (by rfl)
      obtain ⟨ho, ht⟩ := sendBatchResp_flag_equiv bo msv tags lg dms evs0
        entries (client.sendAllDryRun entries)
      rcases hr1 : sendBatchResp (⟨true, bo, msv, tags, lg⟩ : TopicOptions)
          dms evs0 entries (client.sendAllDryRun entries) with ⟨out1, tr1⟩
      rcases hr2 : sendBatchResp (⟨false, bo, msv, tags, lg⟩ : TopicOptions)
          dms evs0 entries (client.sendAllDryRun entries) with ⟨out2, tr2⟩
      rw [hr1, hr2] at ho ht
      have ho2 : out1 = out2 := ho
      have ht2 : tr1.map stripDry = tr2.map stripDry := ht
      rcases hm : msv with _ | u
      · subst hm
        have e1 : fcmTopic.SendBatch
            (⟨client, ⟨true, bo, none, tags, lg⟩⟩ : fcmTopic Msg Err) decode
              dms = (Outcome.nilPanic "MetricService.Timing", tr1) := by
          rw [SendBatch_mk_eq]
          rw [h1.trans hr1]
        have e2 : fcmTopic.SendBatch
            (⟨⟨client.sendAllDryRun, client.sendAllDryRun⟩,
              ⟨false, bo, none, tags, lg⟩⟩ : fcmTopic Msg Err) decode dms =
            (Outcome.nilPanic "MetricService.Timing", tr2) := by
          rw [SendBatch_mk_eq]
          rw [h2.trans hr2]
        rw [e1, e2]
        exact ⟨rfl, ht2⟩
      · subst hm
        have e1 : fcmTopic.SendBatch
            (⟨client, ⟨true, bo, some u, tags, lg⟩⟩ : fcmTopic Msg Err)
              decode dms =
            (out1, tr1 ++ [Event.timing
              "firebase.messagine.sendBatch.latency" tags]) := by
          rw [SendBatch_mk_eq]
          rw [h1.trans hr1]
        have e2 : fcmTopic.SendBatch
            (⟨⟨client.sendAllDryRun, client.sendAllDryRun⟩,
              ⟨false, bo, some u, tags, lg⟩⟩ : fcmTopic Msg Err) decode
              dms =
            (out2, tr2 ++ [Event.timing
              "firebase.messagine.sendBatch.latency" tags]) := by
          rw [SendBatch_mk_eq]
          rw [h2.trans hr2]
        rw [e1, e2]
        refine ⟨ho2, ?_⟩
        simp [ht2]
  exact ⟨hmain.1, hmain.2, hthird⟩

/-- Claim C10: when the backend call succeeds but the reported success count
is below the batch size, with a live logger and after-send hooks that all
succeed, the after-send invocations are exactly the positions whose response
entry is successful and that supply a hook — each exactly once (strictly
increasing positions), none for a failed entry — because the duplicate
full-batch second pass is guarded by `SuccessCount == len(dms)` and cannot
run. -/
theorem sendBatch_afterSend_once_partial_failure (opts : TopicOptions)
    (client : FCMClient Msg Err) (decode : Body → Except Err Msg)
    (dms : List (DriverMessage Body Msg Err)) (evs0 : List (Event Msg Err))
    (entries : List Msg) (resp : BatchResponse Err)
    (hms : opts.metricService = some ())
    (hlog : opts.logger = some ())
    (hbe : buildEntries decode 0 dms = (evs0, Except.ok entries))
    (hcall : (if opts.dryRun then client.sendAllDryRun entries
              else client.sendAll entries) = Except.ok resp)
    (_hlen : resp.responses.length = dms.length)
    (hcount : resp.successCount < dms.length)
    (hhook : ∀ dm ∈ dms, ∀ f, dm.afterSend = some f → ∀ r, f r = none) :
    afterSendsOf (fcmTopic.SendBatch ⟨client, opts⟩ decode dms).2 =
        successHooked resp.responses 0 dms ∧
      List.Pairwise (· < ·) (successHooked resp.responses 0 dms) ∧
      (∀ k ∈ successHooked resp.responses 0 dms,
        (resp.responses.getD k
          { success := false, error := none }).success = true) := by
  refine ⟨?_, successHooked_pairwise resp.responses dms 0,
    successHooked_success resp.responses dms 0⟩
  obtain ⟨hA1, hA2⟩ := afterLoop_ok resp.responses dms hhook 0
  rcases hAL : afterLoop (some ()) resp.responses 0 dms with ⟨evsA, outA⟩
  rw [hAL] at hA1 hA2
  have houtA : outA = Outcome.ok := hA2
  subst houtA
  have hevsA : evsA.filterMap (fun ev => match ev with
      | Event.afterSend n => some n
      | _ => none) = successHooked resp.responses 0 dms := hA1
  have htail : ∀ pre : List (Event Msg Err),
      sendBatchTail opts resp dms pre = (Outcome.ok, pre ++ evsA) := by
    intro pre
    unfold sendBatchTail
    rw [hlog, hAL]
    simp only [sendBatchTailAfter]
    rw [if_neg (Nat.ne_of_lt hcount)]
  have h0 : evs0.filterMap (fun ev => match ev with
      | Event.afterSend n => some n
      | _ => none) = [] := by
    have h := buildEntries_filterMap_nil decode (fun ev => match ev with
      | Event.afterSend n => some n
      | _ => none) (fun k => rfl) 0 dms
    rw [hbe] at h
    exact h
  have hcore0 : sendBatchCore opts client decode dms =
      sendBatchResp opts dms evs0 entries (Except.ok resp) := by
    rw [sendBatchCore_eq_resp opts client decode dms evs0 entries hbe, hcall]
  by_cases hfc : resp.failureCount > 0
  · have hfull : sendBatchCore opts client decode dms =
        (Outcome.ok, (evs0 ++ [Event.backendCall opts.dryRun entries,
          Event.countMetric "firebase.message.sendBatch.failure"
            resp.failureCount opts.tags]) ++ evsA) := by
      rw [hcore0]
      show sendBatchResp opts dms evs0 entries (Except.ok resp) = _
      simp only [sendBatchResp]
      rw [if_pos hfc, hms]
      exact htail _
    have hsb := SendBatch_eq_of_core client opts decode dms _ _ hms hfull
    rw [hsb]
    unfold afterSendsOf
    simp only [List.filterMap_append, h0, hevsA]
    simp
  · have hfull : sendBatchCore opts client decode dms =
        (Outcome.ok,
          (evs0 ++ [Event.backendCall opts.dryRun entries]) ++ evsA) := by
      rw [hcore0]
      show sendBatchResp opts dms evs0 entries (Except.ok resp) = _
      simp only [sendBatchResp]
      rw [if_neg hfc]
      exact htail _
    have hsb := SendBatch_eq_of_core client opts decode dms _ _ hms hfull
    rw [hsb]
    unfold afterSendsOf
    simp only [List.filterMap_append, h0, hevsA]
    simp

/-- Witness for the C10 theorem on the concrete partial-failure batch: entry 0
succeeded and entry 1 failed, so the after-send hook runs exactly once, at
position 0. -/
theorem sendBatch_afterSend_once_partial_failure_witness :
    afterSendsOf (fcmTopic.SendBatch ⟨exClientPartial, exOpts⟩ exDecode
        [exDmHooked, exDmHooked]).2 = [0] := by
  have h := sendBatch_afterSend_once_partial_failure exOpts exClientPartial
    exDecode [exDmHooked, exDmHooked]
    [Event.beforeSend 0, Event.beforeSend 1] ["m", "m"]
    { successCount := 1, failureCount := 1,
      responses := [{ success := true, error := none },
        { success := false, error := some "invalid token" }] }
    rfl rfl rfl rfl rfl (by decide)
    (by
      intro dm hm f hf r
      rcases List.mem_cons.mp hm with rfl | hm
      · have hf2 : (some fun r2 => (none : Option String)) = some f := hf
        rcases Option.some.injEq .. |>.mp hf2 with rfl
        rfl
      rcases List.mem_cons.mp hm with rfl | hm
      · have hf2 : (some fun r2 => (none : Option String)) = some f := hf
        rcases Option.some.injEq .. |>.mp hf2 with rfl
        rfl
      · simp at hm)
  exact h.1.trans rfl

end Claims

end Firebase
